import Mathlib

/-!
# Verification of the Bible-study app's core logic

A shallow embedding of the repository's pure logic:

* `src/utils/trackerUtils.ts` — the reading tracker (`getReadingStatus`,
  `markChapterAsRead`, `toggleChapterReadStatus`, `isChapterRead`).
  JavaScript objects (`Record<string, ...>`) are modelled as association
  lists with first-occurrence lookup; `objSet` mirrors property
  assignment (update-in-place for an existing key, append for a fresh
  one) and `objDelete` mirrors the `delete` operator.
* `src/services/geminiService.ts` — the session-scoped passage cache
  around `streamPassageText`.
* `App.tsx` (`streamAndPlay`) — the chapter playback sequencer: verse
  parsing, per-verse scheduling with `nextStartTime`, cancellation and
  the final cleanup timer.
* `src/components/BibleText.tsx` (`handlePlayVerse`) — the
  highlight-update loop driven by the animation clock.

Time (the audio clock, buffer durations) is modelled with `ℚ`.
-/

namespace BibleStudy

/-! ## JavaScript object maps as association lists -/

/-- Property lookup on a JavaScript object modelled as an association
list: first matching key wins (real objects have unique keys). -/
def objLookup {α : Type} (k : String) : List (String × α) → Option α
  | [] => none
  | (k', v) :: rest => if k' = k then some v else objLookup k rest

/-- Property assignment `m[k] = v`: replaces the first entry with key
`k` in place, or appends a fresh entry (insertion order preserved, as
for JavaScript objects). -/
def objSet {α : Type} (k : String) (v : α) : List (String × α) → List (String × α)
  | [] => [(k, v)]
  | (k', v') :: rest => if k' = k then (k, v) :: rest else (k', v') :: objSet k v rest

/-- The `delete m[k]` operator: removes the first entry with key `k`. -/
def objDelete {α : Type} (k : String) : List (String × α) → List (String × α)
  | [] => []
  | (k', v') :: rest => if k' = k then rest else (k', v') :: objDelete k rest

/-! ## Reading tracker (`src/utils/trackerUtils.ts`) -/

/-- Inner object of `ReadingStatus`: chapter number → boolean. -/
abbrev ChapterMap := List (String × Bool)

/-- `ReadingStatus = Record<string, Record<string, boolean>>`
(`src/types.ts`), modelled as an association list. -/
abbrev ReadingStatus := List (String × ChapterMap)

/-- `getReadingStatus`: reads the persisted string (`none` models an
absent `localStorage` entry) and parses it; a `JSON.parse` failure is
modelled by the parameter `parse` returning `none` and yields the empty
mapping, exactly like the `catch` branch. An empty stored string is
falsy in `status ? JSON.parse(status) : {}` and also yields `{}`. -/
def getReadingStatus (parse : String → Option ReadingStatus)
    (stored : Option String) : ReadingStatus :=
  match stored with
  | none => []
  | some s => if s = "" then [] else (parse s).getD []

/-- `markChapterAsRead` on a status snapshot: ensure the book entry
exists, then set the chapter flag to `true` (the `localStorage`
round-trip between calls is modelled as the identity on the snapshot). -/
def markChapterAsRead (book chapter : String) (status : ReadingStatus) :
    ReadingStatus :=
  let status1 := if (objLookup book status).isSome then status else objSet book [] status
  let inner := (objLookup book status1).getD []
  objSet book (objSet chapter true inner) status1

/-- `toggleChapterReadStatus` on a status snapshot: flip membership of
`chapter` under `book`, pruning the book entry when it becomes empty. -/
def toggleChapterReadStatus (book chapter : String) (status : ReadingStatus) :
    ReadingStatus :=
  let status1 := if (objLookup book status).isSome then status else objSet book [] status
  let inner := (objLookup book status1).getD []
  if (objLookup chapter inner).getD false then
    let inner2 := objDelete chapter inner
    if inner2.isEmpty then objDelete book status1
    else objSet book inner2 status1
  else
    objSet book (objSet chapter true inner) status1

/-- `isChapterRead(status, book, chapter) = !!(status[book] && status[book][chapter])`. -/
def isChapterRead (status : ReadingStatus) (book chapter : String) : Bool :=
  match objLookup book status with
  | none => false
  | some inner => (objLookup chapter inner).getD false

/-- Well-formedness of a parsed `ReadingStatus`: JavaScript objects—and
hence anything `JSON.parse` can produce—never repeat a key, at either
level. -/
def wfStatus (status : ReadingStatus) : Prop :=
  (status.map Prod.fst).Nodup ∧ ∀ p ∈ status, (p.2.map Prod.fst).Nodup

instance : DecidablePred wfStatus := fun _ =>
  inferInstanceAs (Decidable (_ ∧ _))

/-- No book entry maps to an empty chapter object. -/
def noEmptyBooks (status : ReadingStatus) : Bool :=
  status.all (fun p => !p.2.isEmpty)

/-! ## Chapter playback sequencer (`streamAndPlay` in `App.tsx`) -/

/-- `ChapterAudioState` from `App.tsx`. -/
inductive ChapterAudioState
  | idle
  | loading
  | playing
  | error
  deriving DecidableEq

/-- Per-verse outcome of `fetchAndDecode`: `dur = some d` models a
successfully decoded buffer of duration `d` seconds; `none` models a
fetch or decode failure (the promise resolves to `null`). `clock` is
the audio clock value (`audioContext.currentTime`) observed when the
loop's `await audioPromises[i]` resumes for that verse. -/
structure VerseOutcome where
  dur : Option ℚ
  clock : ℚ
  deriving DecidableEq

/-- One scheduled `source.start(...)`: position `idx` of the verse in
the parsed list, absolute start time `start` (seconds on the audio
clock), and occupied length `len = buffer.duration / playbackRate`. -/
structure Sched where
  idx : Nat
  start : ℚ
  len : ℚ
  deriving DecidableEq

/-- Playback-loop state: the running `nextStartTime` and the audio
starts scheduled so far, in scheduling order. -/
structure SeqState where
  nextStartTime : ℚ
  sched : List Sched
  deriving DecidableEq

/-- Body of one loop iteration of `streamAndPlay` for verse `i`: on a
decoded buffer, `nextStartTime = Math.max(nextStartTime,
audioContext.currentTime)`, the source is started exactly there, and
then `nextStartTime += buffer.duration / playbackRate`; on a `null`
result the verse is logged and skipped with the state untouched. -/
def stepVerse (rate : ℚ) (i : Nat) (o : VerseOutcome) (st : SeqState) : SeqState :=
  match o.dur with
  | none => st
  | some d =>
    let s := max st.nextStartTime o.clock
    { nextStartTime := s + d / rate
      sched := st.sched ++ [⟨i, s, d / rate⟩] }

/-- Whether the cooperatively-cancelled flag is observed `true` at
iteration `i`: `cancelAt = some k` means `controller.isCancelled`
becomes visible from iteration `k`'s checks onward. -/
def cancelObserved (cancelAt : Option Nat) (i : Nat) : Bool :=
  match cancelAt with
  | none => false
  | some k => k ≤ i

/-- The `for (let i = 0; i < verses.length; i++)` loop of
`streamAndPlay`, from verse position `i`. The flag is checked at the
top of each iteration and again right after `await audioPromises[i]`,
before any scheduling side effect, so an iteration at or past the
cancellation index contributes nothing. -/
def runLoop (rate : ℚ) (cancelAt : Option Nat) :
    Nat → List VerseOutcome → SeqState → SeqState
  | _, [], st => st
  | i, o :: rest, st =>
    if cancelObserved cancelAt i then st
    else runLoop rate cancelAt (i + 1) rest (stepVerse rate i o st)

/-- Whole-chapter run: loop from verse 0 with
`nextStartTime = audioContext.currentTime` (= `startClock`). -/
def runChapter (rate : ℚ) (cancelAt : Option Nat) (outcomes : List VerseOutcome)
    (startClock : ℚ) : SeqState :=
  runLoop rate cancelAt 0 outcomes ⟨startClock, []⟩

/-- A live `AudioBufferSourceNode` as tracked in `activeAudioSources`. -/
structure AudioSource where
  stopped : Bool
  connected : Bool
  deriving DecidableEq

/-- The app-level audio session state touched by `cleanupChapterAudio`. -/
structure SessionState where
  controllerCancelled : Bool
  activeSources : List AudioSource
  audioState : ChapterAudioState
  currentlyPlayingVerse : Option String
  deriving DecidableEq

/-- `cleanupChapterAudio`: sets the controller's cancellation flag and
drops the controller, calls `stop()` and `disconnect()` on every
tracked source, clears the set, and resets the UI state to idle with no
currently playing verse. Returns the new session state together with
the post-cleanup view of the formerly active sources. -/
def cleanupChapterAudio (s : SessionState) : SessionState × List AudioSource :=
  (⟨true, [], ChapterAudioState.idle, none⟩,
   s.activeSources.map (fun src => { src with stopped := true, connected := false }))

/-- The final cleanup timer delay in milliseconds:
`Math.max(0, (nextStartTime - audioContext.currentTime) * 1000) + 500`. -/
def finalCleanupDelayMs (nextStartTime clockNow : ℚ) : ℚ :=
  max 0 ((nextStartTime - clockNow) * 1000) + 500

/-- After the loop, `streamAndPlay` arms the final cleanup timer only
if the session was not cancelled (`some delay` = timer armed). -/
def scheduleFinalCleanup (isCancelled : Bool) (nextStartTime clockNow : ℚ) : Option ℚ :=
  if isCancelled then none else some (finalCleanupDelayMs nextStartTime clockNow)

/-- The whitespace characters relevant to `\s` and `trim()` on this
app's verse lines. -/
def jsIsSpace (c : Char) : Bool :=
  c == ' ' || c == '\t' || c == '\n' || c == '\r'

/-- `passage.split('\n')` on the character list. -/
def splitOnNewline : List Char → List (List Char)
  | [] => [[]]
  | c :: rest =>
    match splitOnNewline rest with
    | [] => [[c]]
    | l :: ls => if c = '\n' then [] :: l :: ls else (c :: l) :: ls

/-- One application of `replace(/^\d+\.\s*/gm, '')` to a single line (a
split line contains no newline, so the anchored pattern matches at most
once, at position 0). -/
def stripVersePrefixChars (cs : List Char) : List Char :=
  match cs.takeWhile Char.isDigit with
  | [] => cs
  | ds =>
    match cs.drop ds.length with
    | '.' :: rest => rest.dropWhile jsIsSpace
    | _ => cs

/-- `line.match(/^(\d+)\.\s*(.*)/)` producing
`{ number: match[1], text: match[2].replace(/^\d+\.\s*/gm, '') }`, or
`null` when the line does not match. -/
def parseVerseLineChars (cs : List Char) : Option (String × String) :=
  match cs.takeWhile Char.isDigit with
  | [] => none
  | ds =>
    match cs.drop ds.length with
    | '.' :: rest =>
      some (⟨ds⟩, ⟨stripVersePrefixChars (rest.dropWhile jsIsSpace)⟩)
    | _ => none

/-- The verse list built by `streamAndPlay`:
`passage.split('\n').filter(line => line.trim() !== '').map(regex).filter(v => v !== null)`. -/
def parseVerses (passage : String) : List (String × String) :=
  ((splitOnNewline passage.data).filter
      (fun l => l.any (fun c => !jsIsSpace c))).filterMap parseVerseLineChars

/-- Loop invariant for the uncancelled run: every schedule entry lies
before position `i`, occupies time before `nextStartTime`, and has
positive length; consecutive entries are in verse order and
non-overlapping. -/
def schedInv (i : Nat) (st : SeqState) : Prop :=
  (∀ e ∈ st.sched, e.idx < i ∧ e.start + e.len ≤ st.nextStartTime ∧ 0 < e.len) ∧
  List.Chain' (fun a b => a.idx < b.idx ∧ a.start + a.len ≤ b.start ∧ 0 < a.len) st.sched

/-! ## Verse playback highlight loop (`BibleText.tsx`) -/

/-- `VerseAnalysisItem` from `src/types.ts`: one alignment segment with
times in milliseconds. -/
structure VerseAnalysisItem where
  koreanWord : String
  originalWord : String
  startTime : ℚ
  endTime : ℚ
  deriving DecidableEq

/-- JavaScript `Array.prototype.findIndex`: first index satisfying the
predicate, `-1` if none. -/
def jsFindIndex {α : Type} (p : α → Bool) : List α → Int
  | [] => -1
  | x :: rest =>
    if p x then 0
    else if jsFindIndex p rest = -1 then -1 else jsFindIndex p rest + 1

/-- The per-item test of the highlight loop:
`elapsedTimeMs >= item.startTime && elapsedTimeMs < item.endTime`. -/
def segContains (item : VerseAnalysisItem) (elapsedMs : ℚ) : Bool :=
  decide (item.startTime ≤ elapsedMs) && decide (elapsedMs < item.endTime)

/-- `analysis.findIndex(item => elapsedTimeMs >= item.startTime && elapsedTimeMs < item.endTime)`. -/
def highlightIndexAt (analysis : List VerseAnalysisItem) (elapsedMs : ℚ) : Int :=
  jsFindIndex (fun item => segContains item elapsedMs) analysis

/-- Result of one `onPlaybackUpdate` animation-frame callback. -/
inductive UpdateStep
  | terminated
  | waiting
  | highlight (index : Int)
  deriving DecidableEq

/-- One iteration of the `onPlaybackUpdate` loop in `handlePlayVerse`:
stop if the captured audio-source handle no longer matches the live
one; re-arm without updating while the clock has not reached the
playback start; otherwise set the highlighted index from the elapsed
milliseconds. Source handles are modelled by identity numbers. -/
def onPlaybackUpdate (liveSource capturedSource : Nat) (now playbackStartTime : ℚ)
    (analysis : List VerseAnalysisItem) : UpdateStep :=
  if liveSource ≠ capturedSource then UpdateStep.terminated
  else if now < playbackStartTime then UpdateStep.waiting
  else UpdateStep.highlight (highlightIndexAt analysis ((now - playbackStartTime) * 1000))

/-! ## Passage cache (`streamPassageText` in `geminiService.ts`) -/

/-- `sessionStorage`, modelled as an association list. -/
abbrev Store := List (String × String)

/-- The cache key: `` `passage:${book}:${chapter}` ``. -/
def passageCacheKey (book chapter : String) : String :=
  "passage:" ++ book ++ ":" ++ chapter

/-- JavaScript `String.prototype.trim` on this app's text. -/
def jsTrim (s : String) : String :=
  ⟨((s.data.dropWhile jsIsSpace).reverse.dropWhile jsIsSpace).reverse⟩

/-- Observable result of one `streamPassageText` generator run:
the yielded chunks, how many underlying `generateContentStream` calls
were made, the session store afterwards, and whether the run threw. -/
structure StreamRun where
  yielded : List String
  genCalls : Nat
  store : Store
  failed : Bool
  deriving DecidableEq

/-- `streamPassageText(book, chapter)` as a function of the store and
the network outcome: `network = none` models a thrown fetch error,
`some chunks` a successful stream whose chunk texts are `chunks`
(`""` models a falsy `chunk.text`, which is neither accumulated nor
yielded). On a cache hit (non-empty stored text) the cached value is
yielded with no network call; on a miss the fetch runs, and the
accumulated text is stored (trimmed) only when non-empty. -/
def streamPassageText (store : Store) (book chapter : String)
    (network : Option (List String)) : StreamRun :=
  let key := passageCacheKey book chapter
  let cached := (objLookup key store).getD ""
  if cached ≠ "" then ⟨[cached], 0, store, false⟩
  else
    match network with
    | none => ⟨[], 1, store, true⟩
    | some chunks =>
      let yielded := chunks.filter (fun c => c ≠ "")
      let fullText := String.join yielded
      if fullText ≠ "" then ⟨yielded, 1, objSet key (jsTrim fullText) store, false⟩
      else ⟨yielded, 1, store, false⟩

/-- Total number of underlying text-generation calls made by two
back-to-back requests for the same `(book, chapter)`. -/
def twoRequestCalls (store : Store) (book chapter : String)
    (net1 net2 : Option (List String)) : Nat :=
  let r1 := streamPassageText store book chapter net1
  r1.genCalls + (streamPassageText r1.store book chapter net2).genCalls

theorem objLookup_objSet_self {α : Type} (k : String) (v : α) (m : List (String × α)) :
    objLookup k (objSet k v m) = some v := by
  induction m with
  | nil => simp [objSet, objLookup]
  | cons p rest ih =>
    obtain ⟨k', v'⟩ := p
    by_cases h : k' = k
    · simp [objSet, objLookup, h]
    · simp [objSet, objLookup, h, ih]

theorem objLookup_objSet_ne {α : Type} {k k' : String} (h : k' ≠ k) (v : α)
    (m : List (String × α)) : objLookup k' (objSet k v m) = objLookup k' m := by
  induction m with
  | nil => simp [objSet, objLookup, Ne.symm h]
  | cons p rest ih =>
    obtain ⟨k'', v''⟩ := p
    by_cases h2 : k'' = k
    · subst h2
      simp [objSet, objLookup, Ne.symm h]
    · simp [objSet, objLookup, h2, ih]

theorem objLookup_objDelete_ne {α : Type} {k k' : String} (h : k' ≠ k)
    (m : List (String × α)) : objLookup k' (objDelete k m) = objLookup k' m := by
  induction m with
  | nil => simp [objDelete]
  | cons p rest ih =>
    obtain ⟨k'', v''⟩ := p
    by_cases h2 : k'' = k
    · subst h2
      simp [objDelete, objLookup, Ne.symm h]
    · simp [objDelete, objLookup, h2, ih]

theorem objLookup_eq_none {α : Type} {k : String} {m : List (String × α)}
    (h : k ∉ m.map Prod.fst) : objLookup k m = none := by
  induction m with
  | nil => rfl
  | cons p rest ih =>
    obtain ⟨k', v'⟩ := p
    simp only [List.map_cons, List.mem_cons] at h
    push_neg at h
    have hne : k' ≠ k := fun hh => h.1 hh.symm
    simp only [objLookup, if_neg hne, ih h.2]

theorem objLookup_objDelete_self {α : Type} {k : String} {m : List (String × α)}
    (hnd : (m.map Prod.fst).Nodup) : objLookup k (objDelete k m) = none := by
  induction m with
  | nil => rfl
  | cons p rest ih =>
    obtain ⟨k', v'⟩ := p
    simp only [List.map_cons, List.nodup_cons] at hnd
    by_cases h : k' = k
    · subst h
      simp only [objDelete, if_pos rfl]
      exact objLookup_eq_none hnd.1
    · simp only [objDelete, if_neg h, objLookup, if_neg h]
      exact ih hnd.2

theorem objLookup_objSet_eq_of_lookup {α : Type} {k : String} {v : α}
    {m : List (String × α)} (h : objLookup k m = some v) : objSet k v m = m := by
  induction m with
  | nil => simp [objLookup] at h
  | cons p rest ih =>
    obtain ⟨k', v'⟩ := p
    by_cases h2 : k' = k
    · simp only [objLookup, if_pos h2, Option.some.injEq] at h
      subst h
      simp [objSet, h2]
    · simp only [objLookup, if_neg h2] at h
      simp [objSet, h2, ih h]

theorem objSet_ne_nil {α : Type} (k : String) (v : α) (m : List (String × α)) :
    objSet k v m ≠ [] := by
  cases m with
  | nil => simp [objSet]
  | cons p rest =>
    obtain ⟨k', v'⟩ := p
    by_cases h : k' = k <;> simp [objSet, h]

theorem mem_objSet {α : Type} {k : String} {v : α} {m : List (String × α)}
    {x : String × α} (hx : x ∈ objSet k v m) : x ∈ m ∨ x = (k, v) := by
  induction m with
  | nil => simp [objSet] at hx; exact Or.inr hx
  | cons p rest ih =>
    obtain ⟨k', v'⟩ := p
    by_cases h : k' = k
    · simp only [objSet, if_pos h, List.mem_cons] at hx
      rcases hx with hx | hx
      · exact Or.inr hx
      · exact Or.inl (List.mem_cons_of_mem _ hx)
    · simp only [objSet, if_neg h, List.mem_cons] at hx
      rcases hx with hx | hx
      · exact Or.inl (by simp [hx])
      · rcases ih hx with h2 | h2
        · exact Or.inl (List.mem_cons_of_mem _ h2)
        · exact Or.inr h2

theorem mem_objDelete {α : Type} {k : String} {m : List (String × α)}
    {x : String × α} (hx : x ∈ objDelete k m) : x ∈ m := by
  induction m with
  | nil => simp [objDelete] at hx
  | cons p rest ih =>
    obtain ⟨k', v'⟩ := p
    by_cases h : k' = k
    · simp only [objDelete, if_pos h] at hx
      exact List.mem_cons_of_mem _ hx
    · simp only [objDelete, if_neg h, List.mem_cons] at hx
      rcases hx with hx | hx
      · exact hx ▸ List.mem_cons_self _ _
      · exact List.mem_cons_of_mem _ (ih hx)

theorem keys_objSet_of_lookup_some {α : Type} {k : String} {v : α}
    {m : List (String × α)} (h : (objLookup k m).isSome) :
    (objSet k v m).map Prod.fst = m.map Prod.fst := by
  induction m with
  | nil => simp [objLookup] at h
  | cons p rest ih =>
    obtain ⟨k', v'⟩ := p
    by_cases h2 : k' = k
    · simp [objSet, h2]
    · simp only [objLookup, if_neg h2] at h
      simp [objSet, h2, ih h]

theorem keys_objSet_of_lookup_none {α : Type} {k : String} {v : α}
    {m : List (String × α)} (h : objLookup k m = none) :
    (objSet k v m).map Prod.fst = m.map Prod.fst ++ [k] := by
  induction m with
  | nil => simp [objSet]
  | cons p rest ih =>
    obtain ⟨k', v'⟩ := p
    by_cases h2 : k' = k
    · simp [objLookup, h2] at h
    · simp only [objLookup, if_neg h2] at h
      simp [objSet, h2, ih h]

theorem keys_objDelete_sublist {α : Type} (k : String) (m : List (String × α)) :
    ((objDelete k m).map Prod.fst).Sublist (m.map Prod.fst) := by
  induction m with
  | nil => simp [objDelete]
  | cons p rest ih =>
    obtain ⟨k', v'⟩ := p
    by_cases h : k' = k
    · simp only [objDelete, if_pos h, List.map_cons]
      exact List.sublist_cons_self _ _
    · simp only [objDelete, if_neg h, List.map_cons]
      exact ih.cons₂ _

theorem objLookup_mem {α : Type} {k : String} {v : α} {m : List (String × α)}
    (h : objLookup k m = some v) : (k, v) ∈ m := by
  induction m with
  | nil => simp [objLookup] at h
  | cons p rest ih =>
    obtain ⟨k', v'⟩ := p
    by_cases h2 : k' = k
    · simp only [objLookup, if_pos h2, Option.some.injEq] at h
      subst h2
      subst h
      exact List.mem_cons_self _ _
    · simp only [objLookup, if_neg h2] at h
      exact List.mem_cons_of_mem _ (ih h)

theorem objLookup_none_of_not_mem_keys {α : Type} {k : String} {m : List (String × α)}
    (h : k ∉ m.map Prod.fst) : objLookup k m = none :=
  objLookup_eq_none h

theorem not_mem_keys_of_objLookup_none {α : Type} {k : String} {m : List (String × α)}
    (h : objLookup k m = none) : k ∉ m.map Prod.fst := by
  induction m with
  | nil => simp
  | cons p rest ih =>
    obtain ⟨k', v'⟩ := p
    by_cases h2 : k' = k
    · simp [objLookup, h2] at h
    · simp only [objLookup, if_neg h2] at h
      simp only [List.map_cons, List.mem_cons]
      push_neg
      exact ⟨fun hh => h2 hh.symm, ih h⟩

theorem objSet_objSet {α : Type} (k : String) (v w : α) (m : List (String × α)) :
    objSet k v (objSet k w m) = objSet k v m := by
  induction m with
  | nil => simp [objSet]
  | cons p rest ih =>
    obtain ⟨k', v'⟩ := p
    by_cases h : k' = k
    · simp [objSet, h]
    · simp [objSet, h, ih]

theorem objDelete_objSet {α : Type} (k : String) (v : α) (m : List (String × α)) :
    objDelete k (objSet k v m) = objDelete k m := by
  induction m with
  | nil => simp [objSet, objDelete]
  | cons p rest ih =>
    obtain ⟨k', v'⟩ := p
    by_cases h : k' = k
    · simp [objSet, objDelete, h]
    · simp [objSet, objDelete, h, ih]

theorem objDelete_eq_nil {α : Type} {k : String} {m : List (String × α)}
    (h : objDelete k m = []) : m = [] ∨ ∃ v, m = [(k, v)] := by
  cases m with
  | nil => exact Or.inl rfl
  | cons p rest =>
    obtain ⟨k', v'⟩ := p
    by_cases h2 : k' = k
    · subst h2
      simp [objDelete] at h
      exact Or.inr ⟨v', by rw [h]⟩
    · simp [objDelete, h2] at h

theorem markChapterAsRead_eq (book chapter : String) (status : ReadingStatus) :
    markChapterAsRead book chapter status =
      objSet book (objSet chapter true ((objLookup book status).getD []))
        (if (objLookup book status).isSome then status else objSet book [] status) := by
  cases hb : objLookup book status with
  | some inner0 => simp [markChapterAsRead, hb]
  | none => simp [markChapterAsRead, hb, objLookup_objSet_self]

/-- C9: if the persisted reading-status value is absent, empty (falsy),
or fails to parse as JSON (`parse` returns `none`, modelling the thrown
exception caught by the `catch` branch), `getReadingStatus` returns the
empty mapping; it is a total function of the stored string. -/
theorem getReadingStatus_total (parse : String → Option ReadingStatus)
    (stored : Option String)
    (h : stored = none ∨ ∃ s, stored = some s ∧ parse s = none) :
    getReadingStatus parse stored = [] := by
  rcases h with h | ⟨s, hs, hp⟩
  · simp [getReadingStatus, h]
  · subst hs
    by_cases he : s = ""
    · simp [getReadingStatus, he]
    · simp [getReadingStatus, he, hp]

theorem getReadingStatus_total_witness :
    getReadingStatus (fun _ => none) (some "not valid json") = [] :=
  getReadingStatus_total (fun _ => none) (some "not valid json")
    (Or.inr ⟨"not valid json", rfl, rfl⟩)

theorem isChapterRead_congr {s t : ReadingStatus} {book chapter : String}
    (h : objLookup book s = objLookup book t) :
    isChapterRead s book chapter = isChapterRead t book chapter := by
  unfold isChapterRead
  rw [h]

theorem toggle_eq_of_lookup_none {book chapter : String} {status : ReadingStatus}
    (hb : objLookup book status = none) :
    toggleChapterReadStatus book chapter status =
      objSet book (objSet chapter true []) status := by
  simp [toggleChapterReadStatus, hb, objLookup_objSet_self, objLookup, objSet_objSet]

theorem toggle_eq_of_read {book chapter : String} {status : ReadingStatus} {inner0 : ChapterMap}
    (hb : objLookup book status = some inner0)
    (hc : (objLookup chapter inner0).getD false = true) :
    toggleChapterReadStatus book chapter status =
      (if (objDelete chapter inner0).isEmpty then objDelete book status
       else objSet book (objDelete chapter inner0) status) := by
  by_cases hemp : (objDelete chapter inner0).isEmpty <;>
    simp [toggleChapterReadStatus, hb, hc, hemp]

theorem toggle_eq_of_unread {book chapter : String} {status : ReadingStatus} {inner0 : ChapterMap}
    (hb : objLookup book status = some inner0)
    (hc : (objLookup chapter inner0).getD false = false) :
    toggleChapterReadStatus book chapter status =
      objSet book (objSet chapter true inner0) status := by
  simp [toggleChapterReadStatus, hb, hc]

theorem toggle_preserves_noEmptyBooks (book chapter : String) (status : ReadingStatus)
    (h : noEmptyBooks status = true) :
    noEmptyBooks (toggleChapterReadStatus book chapter status) = true := by
  have hmem : ∀ p ∈ status, p.2 ≠ [] := by
    intro p hp
    simpa using (List.all_eq_true.mp h) p hp
  rw [noEmptyBooks, List.all_eq_true]
  intro p hp
  suffices hne : p.2 ≠ [] by simpa using hne
  cases hb : objLookup book status with
  | none =>
    rw [toggle_eq_of_lookup_none hb] at hp
    rcases mem_objSet hp with h2 | h2
    · exact hmem p h2
    · rw [h2]
      simp [objSet, objLookup]
  | some inner0 =>
    by_cases hc : (objLookup chapter inner0).getD false = true
    · rw [toggle_eq_of_read hb hc] at hp
      by_cases hemp : (objDelete chapter inner0).isEmpty
      · rw [if_pos hemp] at hp
        exact hmem p (mem_objDelete hp)
      · rw [if_neg hemp] at hp
        rcases mem_objSet hp with h2 | h2
        · exact hmem p h2
        · rw [h2]
          simpa [List.isEmpty_iff] using hemp
    · have hcf : (objLookup chapter inner0).getD false = false :=
        Bool.eq_false_iff.mpr hc
      rw [toggle_eq_of_unread hb hcf] at hp
      rcases mem_objSet hp with h2 | h2
      · exact hmem p h2
      · rw [h2]
        exact objSet_ne_nil _ _ _

theorem toggle_preserves_wfStatus (book chapter : String) (status : ReadingStatus)
    (hwf : wfStatus status) : wfStatus (toggleChapterReadStatus book chapter status) := by
  obtain ⟨hkeys, hinner⟩ := hwf
  cases hb : objLookup book status with
  | none =>
    rw [toggle_eq_of_lookup_none hb]
    constructor
    · rw [keys_objSet_of_lookup_none hb]
      simp [List.nodup_append, hkeys, not_mem_keys_of_objLookup_none hb]
    · intro p hp
      rcases mem_objSet hp with h2 | h2
      · exact hinner p h2
      · rw [h2]
        simp [objSet, objLookup]
  | some inner0 =>
    have hnd0 : (inner0.map Prod.fst).Nodup := hinner _ (objLookup_mem hb)
    have hbs : (objLookup book status).isSome := by rw [hb]; rfl
    by_cases hc : (objLookup chapter inner0).getD false = true
    · rw [toggle_eq_of_read hb hc]
      by_cases hemp : (objDelete chapter inner0).isEmpty
      · rw [if_pos hemp]
        constructor
        · exact (keys_objDelete_sublist _ _).nodup hkeys
        · exact fun p hp => hinner p (mem_objDelete hp)
      · rw [if_neg hemp]
        constructor
        · rw [keys_objSet_of_lookup_some hbs]
          exact hkeys
        · intro p hp
          rcases mem_objSet hp with h2 | h2
          · exact hinner p h2
          · rw [h2]
            exact (keys_objDelete_sublist _ _).nodup hnd0
    · have hcf : (objLookup chapter inner0).getD false = false :=
        Bool.eq_false_iff.mpr hc
      rw [toggle_eq_of_unread hb hcf]
      constructor
      · rw [keys_objSet_of_lookup_some hbs]
        exact hkeys
      · intro p hp
        rcases mem_objSet hp with h2 | h2
        · exact hinner p h2
        · rw [h2]
          cases hcc : objLookup chapter inner0 with
          | none =>
            have hk := keys_objSet_of_lookup_none (v := true) hcc
            simp only [hk]
            simp [List.nodup_append, hnd0, not_mem_keys_of_objLookup_none hcc]
          | some b =>
            have hcs : (objLookup chapter inner0).isSome := by rw [hcc]; rfl
            rw [keys_objSet_of_lookup_some hcs]
            exact hnd0

theorem isChapterRead_toggle_self (book chapter : String) (status : ReadingStatus)
    (hwf : wfStatus status) :
    isChapterRead (toggleChapterReadStatus book chapter status) book chapter =
      ! isChapterRead status book chapter := by
  cases hb : objLookup book status with
  | none =>
    rw [toggle_eq_of_lookup_none hb]
    simp [isChapterRead, objLookup_objSet_self, hb, objSet, objLookup]
  | some inner0 =>
    have hnd0 : (inner0.map Prod.fst).Nodup := hwf.2 _ (objLookup_mem hb)
    by_cases hc : (objLookup chapter inner0).getD false = true
    · rw [toggle_eq_of_read hb hc]
      by_cases hemp : (objDelete chapter inner0).isEmpty
      · rw [if_pos hemp]
        have hdel : objLookup book (objDelete book status) = none :=
          objLookup_objDelete_self hwf.1
        simp [isChapterRead, hdel, hb, hc]
      · rw [if_neg hemp]
        have hdel : objLookup chapter (objDelete chapter inner0) = none :=
          objLookup_objDelete_self hnd0
        simp [isChapterRead, objLookup_objSet_self, hb, hc, hdel]
    · have hcf : (objLookup chapter inner0).getD false = false :=
        Bool.eq_false_iff.mpr hc
      rw [toggle_eq_of_unread hb hcf]
      simp [isChapterRead, objLookup_objSet_self, hb, hcf]

/-- C7 counterexample: with the starting status `[("Ruth", {})]` — a
structure containing an empty book entry, which `JSON.parse` can
produce — toggling `("Genesis", "1")` twice leaves the pre-existing
empty book entry in the persisted structure, so the claim's
"no empty book entries after the second toggle" fails as stated. -/
theorem toggle_toggle_empty_book_cex :
    noEmptyBooks (toggleChapterReadStatus "Genesis" "1"
      (toggleChapterReadStatus "Genesis" "1" [("Ruth", [])])) = false := by
  decide

/-- C7 (amended): for every book, chapter and well-formed starting
status (unique keys at both levels, as JSON objects guarantee),
toggling twice returns the tracked status, as observed by
`isChapterRead`, to its original value; and provided the starting
structure had no empty book entries, the structure after the second
toggle has none either. -/
theorem toggle_toggle_roundtrip (book chapter : String) (status : ReadingStatus)
    (hwf : wfStatus status) :
    isChapterRead (toggleChapterReadStatus book chapter
        (toggleChapterReadStatus book chapter status)) book chapter =
      isChapterRead status book chapter ∧
    (noEmptyBooks status = true →
      noEmptyBooks (toggleChapterReadStatus book chapter
        (toggleChapterReadStatus book chapter status)) = true) := by
  refine ⟨?_, fun h =>
    toggle_preserves_noEmptyBooks _ _ _ (toggle_preserves_noEmptyBooks _ _ _ h)⟩
  rw [isChapterRead_toggle_self _ _ _ (toggle_preserves_wfStatus _ _ _ hwf),
    isChapterRead_toggle_self _ _ _ hwf, Bool.not_not]

theorem toggle_toggle_roundtrip_witness :
    isChapterRead (toggleChapterReadStatus "Genesis" "3"
        (toggleChapterReadStatus "Genesis" "3" [("Genesis", [("1", true)])])) "Genesis" "3" =
      isChapterRead [("Genesis", [("1", true)])] "Genesis" "3" ∧
    (noEmptyBooks [("Genesis", [("1", true)])] = true →
      noEmptyBooks (toggleChapterReadStatus "Genesis" "3"
        (toggleChapterReadStatus "Genesis" "3" [("Genesis", [("1", true)])])) = true) :=
  toggle_toggle_roundtrip "Genesis" "3" [("Genesis", [("1", true)])] (by decide)

/-- C8: `toggleChapterReadStatus(book, chapter)` changes at most the
entry for that `(book, chapter)`: for every other `(book2, chapter2)`
pair, the status reported by `isChapterRead` is identical before and
after the toggle (for any well-formed starting status). -/
theorem toggle_frame (book chapter book' chapter' : String) (status : ReadingStatus)
    (hwf : wfStatus status) (hne : ¬(book' = book ∧ chapter' = chapter)) :
    isChapterRead (toggleChapterReadStatus book chapter status) book' chapter' =
      isChapterRead status book' chapter' := by
  by_cases hb' : book' = book
  · subst hb'
    have hc' : chapter' ≠ chapter := fun h => hne ⟨rfl, h⟩
    cases hb : objLookup book' status with
    | none =>
      simp only [toggleChapterReadStatus, hb]
      simp only [Option.isSome_none, Bool.false_eq_true, if_false,
        objLookup_objSet_self, Option.getD_some, objSet_objSet]
      simp [isChapterRead, objLookup_objSet_self, hb, objLookup, objSet, Ne.symm hc']
    | some inner0 =>
      have hnd0 : (inner0.map Prod.fst).Nodup := hwf.2 _ (objLookup_mem hb)
      simp only [toggleChapterReadStatus, hb, Option.isSome_some, if_true, Option.getD_some]
      by_cases hc : (objLookup chapter inner0).getD false = true
      · simp only [hc, if_true]
        by_cases hemp : (objDelete chapter inner0).isEmpty
        · simp only [hemp, if_true]
          have hdel : objLookup book' (objDelete book' status) = none :=
            objLookup_objDelete_self hwf.1
          rcases objDelete_eq_nil (List.isEmpty_iff.mp hemp) with h0 | ⟨v, h0⟩
          · rw [h0] at hc
            simp [objLookup] at hc
          · rw [h0] at hb
            simp [isChapterRead, hdel, hb, objLookup, Ne.symm hc']
        · simp only [hemp, if_false]
          simp [isChapterRead, objLookup_objSet_self, hb, objLookup_objDelete_ne hc']
      · simp only [hc, if_false]
        simp [isChapterRead, objLookup_objSet_self, hb, objLookup_objSet_ne hc']
  · apply isChapterRead_congr
    simp only [toggleChapterReadStatus]
    generalize hs1 :
      (if (objLookup book status).isSome then status else objSet book [] status) = status1
    have h1 : objLookup book' status1 = objLookup book' status := by
      rw [← hs1]
      split
      · rfl
      · exact objLookup_objSet_ne hb' _ _
    split
    · split
      · rw [objLookup_objDelete_ne hb', h1]
      · rw [objLookup_objSet_ne hb', h1]
    · rw [objLookup_objSet_ne hb', h1]

theorem toggle_frame_witness :
    isChapterRead (toggleChapterReadStatus "Genesis" "1" [("Exodus", [("2", true)])])
        "Exodus" "2" =
      isChapterRead [("Exodus", [("2", true)])] "Exodus" "2" :=
  toggle_frame "Genesis" "1" "Exodus" "2" [("Exodus", [("2", true)])] (by decide)
    (by decide)

/-- C10: `markChapterAsRead` is idempotent: after one call the chapter
reads as read, and a second call returns the persisted structure
unchanged (hence its serialization is also unchanged). -/
theorem markChapterAsRead_idempotent (book chapter : String) (status : ReadingStatus) :
    isChapterRead (markChapterAsRead book chapter status) book chapter = true ∧
    markChapterAsRead book chapter (markChapterAsRead book chapter status) =
      markChapterAsRead book chapter status := by
  rw [markChapterAsRead_eq]
  set status1 := if (objLookup book status).isSome then status else objSet book [] status
  set innerNew := objSet chapter true ((objLookup book status).getD []) with hin
  have hbook : objLookup book (objSet book innerNew status1) = some innerNew :=
    objLookup_objSet_self ..
  constructor
  · simp [isChapterRead, hbook, hin, objLookup_objSet_self]
  · rw [markChapterAsRead_eq, hbook]
    simp only [Option.isSome_some, if_pos rfl, Option.getD_some]
    rw [hin, objSet_objSet, ← hin]
    exact objLookup_objSet_eq_of_lookup hbook

theorem stepVerse_none {rate : ℚ} {i : Nat} {o : VerseOutcome} {st : SeqState}
    (h : o.dur = none) : stepVerse rate i o st = st := by
  simp [stepVerse, h]

theorem runLoop_none_append (rate : ℚ) (i : Nat) (xs ys : List VerseOutcome) (st : SeqState) :
    runLoop rate none i (xs ++ ys) st =
      runLoop rate none (i + xs.length) ys (runLoop rate none i xs st) := by
  induction xs generalizing i st with
  | nil => simp [runLoop]
  | cons o rest ih =>
    simp only [List.cons_append, runLoop, cancelObserved, Bool.false_eq_true, if_false,
      List.append_eq]
    rw [ih]
    congr 1
    simp only [List.length_cons]
    omega

theorem schedInv_mono {i j : Nat} {st : SeqState} (hij : i ≤ j) (h : schedInv i st) :
    schedInv j st :=
  ⟨fun e he => ⟨lt_of_lt_of_le (h.1 e he).1 hij, (h.1 e he).2⟩, h.2⟩

theorem stepVerse_inv {rate : ℚ} (hrate : 0 < rate) {i : Nat} {o : VerseOutcome}
    (ho : ∀ d, o.dur = some d → 0 < d) {st : SeqState} (h : schedInv i st) :
    schedInv (i + 1) (stepVerse rate i o st) := by
  cases hd : o.dur with
  | none => exact schedInv_mono (Nat.le_succ i) (stepVerse_none hd ▸ h)
  | some d =>
    have hlen : 0 < d / rate := div_pos (ho d hd) hrate
    have hs : st.nextStartTime ≤ max st.nextStartTime o.clock := le_max_left _ _
    constructor
    · intro e he
      simp only [stepVerse, hd, List.mem_append, List.mem_singleton] at he
      rcases he with he | he
      · obtain ⟨h1, h2, h3⟩ := h.1 e he
        refine ⟨Nat.lt_succ_of_lt h1, ?_, h3⟩
        simp only [stepVerse, hd]
        calc e.start + e.len ≤ st.nextStartTime := h2
          _ ≤ max st.nextStartTime o.clock := hs
          _ ≤ max st.nextStartTime o.clock + d / rate := by linarith
      · subst he
        refine ⟨Nat.lt_succ_self i, ?_, hlen⟩
        simp only [stepVerse, hd]
        exact le_refl _
    · simp only [stepVerse, hd]
      rw [List.chain'_append]
      refine ⟨h.2, List.chain'_singleton _, ?_⟩
      intro a ha b hb
      simp only [List.head?_cons, Option.mem_def, Option.some.injEq] at hb
      subst hb
      have hmem : a ∈ st.sched := List.mem_of_mem_getLast? ha
      obtain ⟨h1, h2, h3⟩ := h.1 a hmem
      exact ⟨h1, le_trans h2 hs, h3⟩

theorem runLoop_inv {rate : ℚ} (hrate : 0 < rate) (cancelAt : Option Nat) :
    ∀ (os : List VerseOutcome) (i : Nat) (st : SeqState),
      (∀ o ∈ os, ∀ d, o.dur = some d → 0 < d) → schedInv i st →
      schedInv (i + os.length) (runLoop rate cancelAt i os st) := by
  intro os
  induction os with
  | nil => intro i st _ h; simpa [runLoop] using h
  | cons o rest ih =>
    intro i st hos h
    simp only [runLoop]
    by_cases hc : cancelObserved cancelAt i = true
    · rw [if_pos hc]
      exact schedInv_mono (Nat.le_add_right _ _) h
    · rw [if_neg hc]
      have h1 := stepVerse_inv hrate (hos o (List.mem_cons_self _ _)) h
      have h2 := ih (i + 1) (stepVerse rate i o st)
        (fun o' ho' => hos o' (List.mem_cons_of_mem _ ho')) h1
      have : i + 1 + rest.length = i + (o :: rest).length := by
        simp [List.length_cons]; omega
      rwa [this] at h2

theorem runLoop_none_sched_length (rate : ℚ) :
    ∀ (os : List VerseOutcome) (i : Nat) (st : SeqState),
      (runLoop rate none i os st).sched.length =
        st.sched.length + os.countP (fun o => o.dur.isSome) := by
  intro os
  induction os with
  | nil => intro i st; simp [runLoop]
  | cons o rest ih =>
    intro i st
    simp only [runLoop, cancelObserved, Bool.false_eq_true, if_false]
    rw [ih]
    cases hd : o.dur with
    | none => simp [stepVerse, hd, List.countP_cons]
    | some d => simp [stepVerse, hd, List.countP_cons]; omega

theorem countP_dur_split (os : List VerseOutcome) :
    os.countP (fun o => o.dur.isSome) + os.countP (fun o => o.dur.isNone) = os.length := by
  induction os with
  | nil => rfl
  | cons o rest ih =>
    cases hd : o.dur <;> simp [List.countP_cons, hd] <;> omega

/-- C1: for every chapter run with parsed-verse outcome list
`outcomes` (any per-verse fetch/decode success or failure pattern), a
positive playback rate and positive clip durations, the sequencer
schedules exactly `N - failures` audio starts, in verse order, with
strictly increasing start times and no two clips overlapping; each
successful verse starts at `max(nextStartTime, currentAudioClockTime)`
and afterwards `nextStartTime` advances by `clipDuration / playbackRate`. -/
theorem chapter_schedule_correct (rate : ℚ) (outcomes : List VerseOutcome)
    (startClock : ℚ) (hrate : 0 < rate)
    (hdur : ∀ o ∈ outcomes, ∀ d, o.dur = some d → 0 < d) :
    (runChapter rate none outcomes startClock).sched.length =
        outcomes.length - outcomes.countP (fun o => o.dur.isNone) ∧
    List.Chain' (fun a b => a.idx < b.idx)
      (runChapter rate none outcomes startClock).sched ∧
    List.Chain' (fun a b => a.start < b.start)
      (runChapter rate none outcomes startClock).sched ∧
    List.Chain' (fun a b => a.start + a.len ≤ b.start)
      (runChapter rate none outcomes startClock).sched ∧
    (∀ (i : Nat) (o : VerseOutcome) (st : SeqState) (d : ℚ), o.dur = some d →
      stepVerse rate i o st =
        ⟨max st.nextStartTime o.clock + d / rate,
         st.sched ++ [⟨i, max st.nextStartTime o.clock, d / rate⟩]⟩) := by
  have hinv : schedInv (0 + outcomes.length) (runChapter rate none outcomes startClock) :=
    runLoop_inv hrate none outcomes 0 ⟨startClock, []⟩ hdur
      ⟨fun e he => absurd he (List.not_mem_nil e), List.chain'_nil⟩
  have hchain := hinv.2
  refine ⟨?_, ?_, ?_, ?_, ?_⟩
  · have hlen := runLoop_none_sched_length rate outcomes 0 ⟨startClock, []⟩
    have hcount := countP_dur_split outcomes
    simp only [runChapter] at hlen ⊢
    simp only [List.length_nil] at hlen
    omega
  · exact List.Chain'.imp (fun a b h => h.1) hchain
  · exact List.Chain'.imp (fun a b h => by
      obtain ⟨h1, h2, h3⟩ := h
      linarith) hchain
  · exact List.Chain'.imp (fun a b h => h.2.1) hchain
  · intro i o st d hd
    simp [stepVerse, hd]

theorem chapter_schedule_correct_witness :
    (runChapter 1 none [⟨some 1, 0⟩, ⟨none, 2⟩, ⟨some (3/2), 0⟩] 0).sched.length =
        ([⟨some 1, 0⟩, ⟨none, 2⟩, ⟨some (3/2), 0⟩] : List VerseOutcome).length -
          ([⟨some 1, 0⟩, ⟨none, 2⟩, ⟨some (3/2), 0⟩] : List VerseOutcome).countP
            (fun o => o.dur.isNone) ∧
    List.Chain' (fun a b => a.idx < b.idx)
      (runChapter 1 none [⟨some 1, 0⟩, ⟨none, 2⟩, ⟨some (3/2), 0⟩] 0).sched ∧
    List.Chain' (fun a b => a.start < b.start)
      (runChapter 1 none [⟨some 1, 0⟩, ⟨none, 2⟩, ⟨some (3/2), 0⟩] 0).sched ∧
    List.Chain' (fun a b => a.start + a.len ≤ b.start)
      (runChapter 1 none [⟨some 1, 0⟩, ⟨none, 2⟩, ⟨some (3/2), 0⟩] 0).sched ∧
    (∀ (i : Nat) (o : VerseOutcome) (st : SeqState) (d : ℚ), o.dur = some d →
      stepVerse 1 i o st =
        ⟨max st.nextStartTime o.clock + d / 1,
         st.sched ++ [⟨i, max st.nextStartTime o.clock, d / 1⟩]⟩) :=
  chapter_schedule_correct 1 [⟨some 1, 0⟩, ⟨none, 2⟩, ⟨some (3/2), 0⟩] 0 (by norm_num)
    (by
      intro o ho d hd
      simp only [List.mem_cons, List.not_mem_nil, or_false] at ho
      rcases ho with rfl | rfl | rfl <;> simp only [Option.some.injEq] at hd <;> first
        | (subst hd; norm_num)
        | exact absurd hd (by simp))

theorem runLoop_cancel_mem (rate : ℚ) (k : Nat) :
    ∀ (os : List VerseOutcome) (i : Nat) (st : SeqState) (e : Sched),
      e ∈ (runLoop rate (some k) i os st).sched → e ∈ st.sched ∨ e.idx < k := by
  intro os
  induction os with
  | nil =>
    intro i st e he
    exact Or.inl (by simpa [runLoop] using he)
  | cons o rest ih =>
    intro i st e he
    simp only [runLoop] at he
    by_cases hc : cancelObserved (some k) i = true
    · rw [if_pos hc] at he
      exact Or.inl he
    · rw [if_neg hc] at he
      have hik : i < k := by
        simp only [cancelObserved, decide_eq_true_eq] at hc
        omega
      rcases ih (i + 1) _ e he with hmem | hlt
      · cases hd : o.dur with
        | none =>
          rw [stepVerse_none hd] at hmem
          exact Or.inl hmem
        | some d =>
          simp only [stepVerse, hd, List.mem_append, List.mem_singleton] at hmem
          rcases hmem with hmem | rfl
          · exact Or.inl hmem
          · exact Or.inr hik
      · exact Or.inr hlt

/-- C2: once the session's cancellation flag is observed (from verse
index `k` on), no iteration at or past `k` schedules audio — every
scheduled start has index `< k` — the final-cleanup timer of a
cancelled session is never armed, and `cleanupChapterAudio` stops and
disconnects every tracked source, clears the set, and reports the
session state as idle. -/
theorem cancellation_halts (rate : ℚ) (k : Nat) (outcomes : List VerseOutcome)
    (startClock : ℚ) (s : SessionState) :
    (runChapter rate (some k) outcomes startClock).sched.all
        (fun e => decide (e.idx < k)) = true ∧
    (∀ nextStart clockNow : ℚ, scheduleFinalCleanup true nextStart clockNow = none) ∧
    (cleanupChapterAudio s).1.audioState = ChapterAudioState.idle ∧
    (cleanupChapterAudio s).1.activeSources = [] ∧
    (cleanupChapterAudio s).1.controllerCancelled = true ∧
    (cleanupChapterAudio s).2.all (fun src => src.stopped && !src.connected) = true := by
  refine ⟨?_, fun _ _ => rfl, rfl, rfl, rfl, ?_⟩
  · rw [List.all_eq_true]
    intro e he
    rcases runLoop_cancel_mem rate k outcomes 0 ⟨startClock, []⟩ e he with h | h
    · simp at h
    · simpa using h
  · rw [List.all_eq_true]
    intro src hsrc
    simp only [cleanupChapterAudio, List.mem_map] at hsrc
    obtain ⟨a, _, rfl⟩ := hsrc
    rfl

/-- C3: a fetch/decode failure for the verse at position
`pre.length` leaves the loop state untouched (nothing scheduled,
`nextStartTime` not advanced — no timeline delay), and the chapter run
continues with the remaining verses exactly as if resuming from the
next index: a single verse failure never aborts the chapter. -/
theorem verse_failure_skipped (rate : ℚ) (k : Nat) (o : VerseOutcome) (st : SeqState)
    (pre post : List VerseOutcome) (startClock : ℚ) (hfail : o.dur = none) :
    stepVerse rate k o st = st ∧
    runChapter rate none (pre ++ o :: post) startClock =
      runLoop rate none (pre.length + 1) post (runLoop rate none 0 pre ⟨startClock, []⟩) := by
  refine ⟨stepVerse_none hfail, ?_⟩
  rw [runChapter, runLoop_none_append]
  simp [runLoop, cancelObserved, stepVerse_none hfail]

theorem verse_failure_skipped_witness :
    stepVerse 1 1 ⟨none, 2⟩ ⟨1, [⟨0, 0, 1⟩]⟩ = ⟨1, [⟨0, 0, 1⟩]⟩ ∧
    runChapter 1 none ([⟨some 1, 0⟩] ++ ⟨none, 2⟩ :: [⟨some (3/2), 0⟩]) 0 =
      runLoop 1 none ([(⟨some 1, 0⟩ : VerseOutcome)].length + 1) [⟨some (3/2), 0⟩]
        (runLoop 1 none 0 [⟨some 1, 0⟩] ⟨0, []⟩) :=
  verse_failure_skipped 1 1 ⟨none, 2⟩ ⟨1, [⟨0, 0, 1⟩]⟩ [⟨some 1, 0⟩] [⟨some (3/2), 0⟩] 0 rfl

/-- C4: when the loop ends with `clockNow ≤ nextStartTime`, the
uncancelled final cleanup is armed exactly
`(remaining scheduled time) + 500` milliseconds after that point; in
the concrete scenario — verses `"1. Hello"`, `"2. World"`, clip
durations 1.0 s and 1.5 s, rate 1.0, instant fetches from clock 0 —
verse 1 starts at t = 0, verse 2 at t = 1.0, and the cleanup timer
fires 3000 ms after t = 0, i.e. at t = 3.0 s. -/
theorem final_cleanup_timing (nextStart clockNow : ℚ) (h : clockNow ≤ nextStart) :
    scheduleFinalCleanup false nextStart clockNow =
      some ((nextStart - clockNow) * 1000 + 500) ∧
    parseVerses "1. Hello\n2. World" = [("1", "Hello"), ("2", "World")] ∧
    runChapter 1 none [⟨some 1, 0⟩, ⟨some (3/2), 0⟩] 0 =
      ⟨5/2, [⟨0, 0, 1⟩, ⟨1, 1, 3/2⟩]⟩ ∧
    scheduleFinalCleanup false
      (runChapter 1 none [⟨some 1, 0⟩, ⟨some (3/2), 0⟩] 0).nextStartTime 0 = some 3000 := by
  have hrun : runChapter 1 none [⟨some 1, 0⟩, ⟨some (3/2), 0⟩] 0 =
      ⟨5/2, [⟨0, 0, 1⟩, ⟨1, 1, 3/2⟩]⟩ := by
    norm_num [runChapter, runLoop, stepVerse, cancelObserved]
  refine ⟨?_, by decide, hrun, ?_⟩
  · have hmax : max 0 ((nextStart - clockNow) * 1000) = (nextStart - clockNow) * 1000 :=
      max_eq_right (by nlinarith)
    simp [scheduleFinalCleanup, finalCleanupDelayMs, hmax]
  · rw [hrun]
    norm_num [scheduleFinalCleanup, finalCleanupDelayMs]

theorem final_cleanup_timing_witness :
    scheduleFinalCleanup false 1 0 = some ((1 - 0) * 1000 + 500) ∧
    parseVerses "1. Hello\n2. World" = [("1", "Hello"), ("2", "World")] ∧
    runChapter 1 none [⟨some 1, 0⟩, ⟨some (3/2), 0⟩] 0 =
      ⟨5/2, [⟨0, 0, 1⟩, ⟨1, 1, 3/2⟩]⟩ ∧
    scheduleFinalCleanup false
      (runChapter 1 none [⟨some 1, 0⟩, ⟨some (3/2), 0⟩] 0).nextStartTime 0 = some 3000 :=
  final_cleanup_timing 1 0 (by norm_num)

theorem jsFindIndex_eq_neg_one {α : Type} {p : α → Bool} {xs : List α}
    (h : ∀ x ∈ xs, p x = false) : jsFindIndex p xs = -1 := by
  induction xs with
  | nil => rfl
  | cons x rest ih =>
    have hr := ih (fun y hy => h y (List.mem_cons_of_mem _ hy))
    simp [jsFindIndex, h x (List.mem_cons_self _ _), hr]

theorem jsFindIndex_eq_of_unique {α : Type} {p : α → Bool} {xs : List α} {j : Nat}
    (hj : j < xs.length) (hpj : p (xs.get ⟨j, hj⟩) = true)
    (huniq : ∀ (m : Nat) (hm : m < xs.length), p (xs.get ⟨m, hm⟩) = true → m = j) :
    jsFindIndex p xs = j := by
  induction xs generalizing j with
  | nil => exact absurd hj (Nat.not_lt_zero _)
  | cons x rest ih =>
    by_cases hx : p x = true
    · have h0 : 0 = j := huniq 0 (Nat.succ_pos _) hx
      simp [jsFindIndex, hx, ← h0]
    · have hj0 : j ≠ 0 := by
        intro h0
        subst h0
        exact hx hpj
      obtain ⟨j', rfl⟩ : ∃ m, j = m + 1 := ⟨j - 1, by omega⟩
      have hj' : j' < rest.length := by
        simpa [List.length_cons] using hj
      have hpj' : p (rest.get ⟨j', hj'⟩) = true := by
        simpa [List.get_cons_succ] using hpj
      have huniq' : ∀ (m : Nat) (hm : m < rest.length),
          p (rest.get ⟨m, hm⟩) = true → m = j' := by
        intro m hm hpm
        have := huniq (m + 1) (by simpa [List.length_cons] using Nat.succ_lt_succ hm)
          (by simpa [List.get_cons_succ] using hpm)
        omega
      have hr := ih hj' hpj' huniq'
      have hne : jsFindIndex p rest ≠ -1 := by
        rw [hr]
        omega
      simp only [jsFindIndex, hx, Bool.false_eq_true, if_false, if_neg hne, hr]
      push_cast
      ring

/-- C5: each highlight-loop iteration sets the active index to the
index of the alignment segment whose `[startTimeMs, endTimeMs)`
interval contains the elapsed playback milliseconds, and to `-1` when
no segment contains it; the loop terminates itself as soon as the
captured audio-source handle no longer matches the live one. -/
theorem highlight_update_correct (liveSource capturedSource : Nat)
    (now playbackStartTime : ℚ) (analysis : List VerseAnalysisItem) :
    (liveSource ≠ capturedSource →
      onPlaybackUpdate liveSource capturedSource now playbackStartTime analysis =
        UpdateStep.terminated) ∧
    (liveSource = capturedSource → playbackStartTime ≤ now →
      onPlaybackUpdate liveSource capturedSource now playbackStartTime analysis =
        UpdateStep.highlight
          (highlightIndexAt analysis ((now - playbackStartTime) * 1000))) ∧
    (∀ elapsedMs, (∀ it ∈ analysis, segContains it elapsedMs = false) →
      highlightIndexAt analysis elapsedMs = -1) ∧
    (∀ (elapsedMs : ℚ) (j : Nat) (hj : j < analysis.length),
      segContains (analysis.get ⟨j, hj⟩) elapsedMs = true →
      (∀ (m : Nat) (hm : m < analysis.length),
        segContains (analysis.get ⟨m, hm⟩) elapsedMs = true → m = j) →
      highlightIndexAt analysis elapsedMs = j) := by
  refine ⟨?_, ?_, ?_, ?_⟩
  · intro h
    simp [onPlaybackUpdate, h]
  · intro h hle
    simp [onPlaybackUpdate, h, not_lt.mpr hle]
  · intro e he
    exact jsFindIndex_eq_neg_one he
  · intro e j hj hpj huniq
    exact jsFindIndex_eq_of_unique hj hpj huniq

theorem highlight_update_correct_witness :
    onPlaybackUpdate 1 1 (3/5) 0
        [⟨"ko1", "or1", 0, 500⟩, ⟨"ko2", "or2", 500, 1000⟩] =
      UpdateStep.highlight (highlightIndexAt
        [⟨"ko1", "or1", 0, 500⟩, ⟨"ko2", "or2", 500, 1000⟩] ((3/5 - 0) * 1000)) ∧
    highlightIndexAt [⟨"ko1", "or1", 0, 500⟩, ⟨"ko2", "or2", 500, 1000⟩] 600 = 1 ∧
    highlightIndexAt [⟨"ko1", "or1", 0, 500⟩, ⟨"ko2", "or2", 500, 1000⟩] 1000 = -1 := by
  have h := highlight_update_correct 1 1 (3/5) 0
    [⟨"ko1", "or1", 0, 500⟩, ⟨"ko2", "or2", 500, 1000⟩]
  refine ⟨h.2.1 rfl (by norm_num), ?_, ?_⟩
  · refine h.2.2.2 600 1 (by norm_num) (by norm_num [segContains]) ?_
    intro m hm hpm
    match m, hm with
    | 0, _ => norm_num [segContains, List.get] at hpm
    | 1, _ => rfl
  · refine h.2.2.1 1000 ?_
    intro it hit
    simp only [List.mem_cons, List.not_mem_nil, or_false] at hit
    rcases hit with rfl | rfl <;> norm_num [segContains]

/-- C6 counterexample: a successful fetch whose accumulated text is
empty is not cached (`if (fullText)` is falsy), so two requests for the
same `(book, chapter)` issue two underlying text-generation calls,
refuting the unqualified "exactly one call" claim. -/
theorem passage_cache_cex :
    twoRequestCalls [] "Genesis" "1" (some [""]) (some [""]) = 2 := by decide

theorem streamPassageText_hit {store : Store} {book chapter : String} {cached : String}
    (hl : objLookup (passageCacheKey book chapter) store = some cached) (hne : cached ≠ "")
    (net : Option (List String)) :
    streamPassageText store book chapter net = ⟨[cached], 0, store, false⟩ := by
  simp [streamPassageText, hl, hne]

theorem streamPassageText_miss_fail {store : Store} {book chapter : String}
    (hmiss : (objLookup (passageCacheKey book chapter) store).getD "" = "") :
    streamPassageText store book chapter none = ⟨[], 1, store, true⟩ := by
  simp [streamPassageText, hmiss]

theorem streamPassageText_miss_success {store : Store} {book chapter : String}
    {chunks : List String}
    (hmiss : (objLookup (passageCacheKey book chapter) store).getD "" = "")
    (hfull : String.join (chunks.filter (fun c => c ≠ "")) ≠ "") :
    streamPassageText store book chapter (some chunks) =
      ⟨chunks.filter (fun c => c ≠ ""), 1,
       objSet (passageCacheKey book chapter)
         (jsTrim (String.join (chunks.filter (fun c => c ≠ "")))) store, false⟩ := by
  simp only [ne_eq, decide_not] at hfull ⊢
  simp [streamPassageText, hmiss, hfull]

/-- C6 (amended): a cache hit returns the stored value with no
network call; a miss invokes the fetch and, provided the successful
fetch's accumulated text is non-empty after trimming, stores the
trimmed result so that two requests issue exactly one underlying
text-generation call; a failed fetch stores nothing, so a later
request re-attempts the fetch. -/
theorem passage_cache_correct (store : Store) (book chapter : String) :
    (∀ (net : Option (List String)) (cached : String),
      objLookup (passageCacheKey book chapter) store = some cached → cached ≠ "" →
      streamPassageText store book chapter net = ⟨[cached], 0, store, false⟩) ∧
    (∀ chunks : List String,
      (objLookup (passageCacheKey book chapter) store).getD "" = "" →
      jsTrim (String.join (chunks.filter (fun c => c ≠ ""))) ≠ "" →
      (streamPassageText store book chapter (some chunks)).store =
        objSet (passageCacheKey book chapter)
          (jsTrim (String.join (chunks.filter (fun c => c ≠ "")))) store ∧
      (∀ net2, twoRequestCalls store book chapter (some chunks) net2 = 1)) ∧
    ((objLookup (passageCacheKey book chapter) store).getD "" = "" →
      streamPassageText store book chapter none = ⟨[], 1, store, true⟩ ∧
      (∀ net2, (streamPassageText (streamPassageText store book chapter none).store
        book chapter net2).genCalls = 1)) := by
  refine ⟨?_, ?_, ?_⟩
  · intro net cached hl hne
    exact streamPassageText_hit hl hne net
  · intro chunks hmiss htrim
    have hfull : String.join (chunks.filter (fun c => c ≠ "")) ≠ "" := by
      intro h0
      rw [h0] at htrim
      exact htrim rfl
    rw [streamPassageText_miss_success hmiss hfull]
    refine ⟨rfl, ?_⟩
    intro net2
    simp only [twoRequestCalls, streamPassageText_miss_success hmiss hfull]
    rw [streamPassageText_hit (objLookup_objSet_self ..) htrim net2]
    rfl
  · intro hmiss
    refine ⟨streamPassageText_miss_fail hmiss, ?_⟩
    intro net2
    rw [streamPassageText_miss_fail hmiss]
    cases net2 with
    | none => rw [streamPassageText_miss_fail hmiss]
    | some chunks =>
      by_cases hfull : String.join (chunks.filter (fun c => c ≠ "")) = ""
      · simp only [ne_eq, decide_not] at hfull ⊢
        simp [streamPassageText, hmiss, hfull]
      · rw [streamPassageText_miss_success hmiss hfull]

theorem passage_cache_correct_witness :
    (streamPassageText [("passage:Genesis:1", "text")] "Genesis" "1" none =
      ⟨["text"], 0, [("passage:Genesis:1", "text")], false⟩) ∧
    ((streamPassageText [] "Genesis" "1" (some ["1. In", " the beginning"])).store =
      objSet "passage:Genesis:1" (jsTrim "1. In the beginning") [] ∧
     twoRequestCalls [] "Genesis" "1" (some ["1. In", " the beginning"]) none = 1) := by
  have hhit := (passage_cache_correct [("passage:Genesis:1", "text")] "Genesis" "1").1
    none "text" (by decide) (by decide)
  have hb := (passage_cache_correct [] "Genesis" "1").2.1 ["1. In", " the beginning"]
    (by decide) (by decide)
  exact ⟨hhit, by simpa using hb.1, hb.2 none⟩

end BibleStudy
